import Mathlib

/-!
Shallow embedding of the `SlimQueue` class from `data-oriented-slim-queue`
(`src/data-oriented-slim-queue.ts`, distributed as the compiled JavaScript in
the repository).  JavaScript numbers are modelled as rationals (`ℚ`), the
cyclic buffer as a `List T`, and the JavaScript value `undefined` — used both
for never-written slots and for slots cleared on `pop` — as the `default`
element of an `Inhabited` type.  Operations that `throw` are modelled with
`Except`; `pop` additionally returns the post-state, so that "throws before
mutating" is visible in the embedding.
-/

set_option linter.unusedSectionVars false

namespace SlimQ

/-- The two error kinds the class can raise: `EmptyQueue` from `firstIn`/`pop`,
`InvalidArgument` from the constructor. -/
inductive QueueError where
  | emptyQueue
  | invalidArgument
deriving DecidableEq, Repr

/-- `exports.DEFAULT_SLIM_QUEUE_INITIAL_CAPACITY = 128`. -/
def DEFAULT_SLIM_QUEUE_INITIAL_CAPACITY : ℚ := 128

/-- `exports.DEFAULT_SLIM_QUEUE_CAPACITY_INCREMENT_FACTOR = 1.5`. -/
def DEFAULT_SLIM_QUEUE_CAPACITY_INCREMENT_FACTOR : ℚ := 3/2

/-- `const MIN_ALLOWED_CAPACITY_INCREMENT_FACTOR = 1.1`. -/
def MIN_ALLOWED_CAPACITY_INCREMENT_FACTOR : ℚ := 11/10

/-- `const MAX_ALLOWED_CAPACITY_INCREMENT_FACTOR = 2`. -/
def MAX_ALLOWED_CAPACITY_INCREMENT_FACTOR : ℚ := 2

/-- `function isNaturalNumber(num) { const floored = Math.floor(num);
return floored >= 1 && floored === num; }` -/
def isNaturalNumber (num : ℚ) : Bool :=
  let floored := Int.floor num
  decide (1 ≤ floored) && decide ((floored : ℚ) = num)

/-- The mutable state of a `SlimQueue` instance: the five private fields of
the class.  `_cyclicBuffer` is a JavaScript array of slots (each holding an
item or `undefined`, the latter modelled by `default`). -/
structure SlimQueue (T : Type) where
  cyclicBuffer : List T
  headIndex : ℕ
  size : ℕ
  numberOfCapacityIncrements : ℕ
  capacityIncrementFactor : ℚ
deriving DecidableEq, Repr

variable {T : Type} [Inhabited T]

/-- A write `arr[i] = v` to a JavaScript array: in-bounds it replaces the
slot, out of bounds it extends the array (holes read back as `undefined`). -/
def jsArraySet (l : List T) (i : ℕ) (v : T) : List T :=
  if i < l.length then l.set i v
  else l ++ List.replicate (i - l.length) default ++ [v]

/-- `get capacity() { return this._cyclicBuffer.length; }` -/
def capacity (q : SlimQueue T) : ℕ := q.cyclicBuffer.length

/-- `get isEmpty() { return this._size === 0; }` -/
def isEmpty (q : SlimQueue T) : Bool := q.size == 0

/-- `get firstIn()`: throws `EmptyQueue` when `_size === 0`, otherwise
returns `this._cyclicBuffer[this._headIndex]` without mutating anything. -/
def firstIn (q : SlimQueue T) : Except QueueError T :=
  if q.size = 0 then .error .emptyQueue
  else .ok (q.cyclicBuffer.getD q.headIndex default)

/-- `pop()`: throws `EmptyQueue` when empty (state unchanged), otherwise
reads the slot at `_headIndex`, clears it to `undefined`, advances the head
with wrap-around, and decrements `_size`.  Returned as (result, post-state). -/
def pop (q : SlimQueue T) : Except QueueError T × SlimQueue T :=
  if q.size = 0 then (.error .emptyQueue, q)
  else
    let oldestItem := q.cyclicBuffer.getD q.headIndex default
    let buf := q.cyclicBuffer.set q.headIndex default
    let incrementedHead := q.headIndex + 1
    let newHead := if incrementedHead = buf.length then 0 else incrementedHead
    (.ok oldestItem,
      { q with cyclicBuffer := buf, headIndex := newHead, size := q.size - 1 })

/-- The sequence of buffer indices visited by `_traverseInOrder`:
`count` steps starting at index `i`, incrementing and resetting to `0`
when the incremented index equals the buffer length. -/
def traverseIndicesFrom (len : ℕ) : ℕ → ℕ → List ℕ
  | 0, _ => []
  | count + 1, i => i :: traverseIndicesFrom len count (if i + 1 = len then 0 else i + 1)

/-- `_traverseInOrder(callback)`: the indices it passes to the callback, in
order — `_size` steps starting from `_headIndex`, wrapping at the buffer
length. -/
def traverseInOrderIndices (q : SlimQueue T) : List ℕ :=
  traverseIndicesFrom q.cyclicBuffer.length q.size q.headIndex

/-- `getSnapshot()`: a fresh array of length `_size` whose `k`-th entry is
`this._cyclicBuffer[i]` for the `k`-th index `i` of `_traverseInOrder`. -/
def getSnapshot (q : SlimQueue T) : List T :=
  (traverseInOrderIndices q).map (fun i => q.cyclicBuffer.getD i default)

/-- The copy loop inside `_increaseCapacityIfNecessary`: for each traversal
index `i` (in order), `newCyclicBuffer[k++] = oldBuffer[i]` followed by
`oldBuffer[i] = undefined`.  Both buffers are threaded; the final new buffer
is returned. -/
def growCopy : List T → List T → List ℕ → ℕ → List T
  | _, newBuf, [], _ => newBuf
  | oldBuf, newBuf, i :: rest, k =>
    growCopy (jsArraySet oldBuf i default)
      (jsArraySet newBuf k (oldBuf.getD i default)) rest (k + 1)

/-- Structural (fuel-driven) base-2 logarithm on naturals: `natLog2go fuel n`
halves `n` until it drops below 2, counting the steps. -/
def natLog2go : ℕ → ℕ → ℕ
  | 0, _ => 0
  | fuel + 1, n => if 2 ≤ n then natLog2go fuel (n / 2) + 1 else 0

/-- `natLog2 n` is the exponent `k` with `2 ^ k ≤ n < 2 ^ (k + 1)` for
`n ≥ 1` (fuel `n` always suffices). -/
def natLog2 (n : ℕ) : ℕ := natLog2go n n

/-- Round a rational to the nearest integer, ties going to the even
integer — the rounding rule of IEEE round-to-nearest-even. -/
def roundHalfEven (y : ℚ) : ℤ :=
  if y - Int.floor y < 1/2 then Int.floor y
  else if 1/2 < y - Int.floor y then Int.floor y + 1
  else if Int.floor y % 2 = 0 then Int.floor y else Int.floor y + 1

/-- The IEEE binary64 (double) value nearest to a rational `x ≥ 1`:
the significand `x / 2 ^ (k - 52)` (where `2 ^ k ≤ x < 2 ^ (k + 1)`) is
rounded to an integer — nearest, ties to even — and scaled back.  This is
exactly the rounding a JavaScript engine applies to the result of
`currCapacity * factor`: for validated queues that product lies in
`[1.1, 2^33]`, far from the subnormal and overflow ranges, so neither needs
modelling.  For `x < 1` (never produced by the growth computation) the value
is returned unchanged. -/
def roundToDouble (x : ℚ) : ℚ :=
  if 1 ≤ x then
    let k := natLog2 (Int.floor x).toNat
    let scaled := x * 2 ^ 52 / 2 ^ k
    ((roundHalfEven scaled : ℤ) : ℚ) * 2 ^ k / 2 ^ 52
  else x

/-- `_increaseCapacityIfNecessary()`: returns unchanged when
`_size < _cyclicBuffer.length`; otherwise allocates
`new Array(Math.ceil(currCapacity * this._capacityIncrementFactor))` filled
with `undefined` — the multiplication is performed in the host's binary64
floating-point arithmetic, modelled by rounding the exact product with
`roundToDouble` — copies the items over in traversal order (head
re-linearized to index 0), resets `_headIndex = 0`, swaps the buffer and
increments `_numberOfCapacityIncrements`. -/
def increaseCapacityIfNecessary (q : SlimQueue T) : SlimQueue T :=
  let currCapacity := q.cyclicBuffer.length
  if q.size < currCapacity then q
  else
    let newCapacity : ℕ :=
      (Int.ceil (roundToDouble
        ((currCapacity : ℚ) * q.capacityIncrementFactor))).toNat
    let newCyclicBuffer :=
      growCopy q.cyclicBuffer (List.replicate newCapacity default)
        (traverseInOrderIndices q) 0
    { q with
        cyclicBuffer := newCyclicBuffer
        headIndex := 0
        numberOfCapacityIncrements := q.numberOfCapacityIncrements + 1 }

/-- `_calculateExclusiveTailIndex()`: `_headIndex + _size`, minus the buffer
length if that exceeds it. -/
def calculateExclusiveTailIndex (q : SlimQueue T) : ℕ :=
  let tailIndex := q.headIndex + q.size
  if tailIndex < q.cyclicBuffer.length then tailIndex
  else tailIndex - q.cyclicBuffer.length

/-- `push(item)`: grow if necessary, write `item` at the exclusive tail
index, increment `_size`.  Never fails. -/
def push (q : SlimQueue T) (item : T) : SlimQueue T :=
  let q1 := increaseCapacityIfNecessary q
  let tailIndex := calculateExclusiveTailIndex q1
  { q1 with
      cyclicBuffer := jsArraySet q1.cyclicBuffer tailIndex item
      size := q1.size + 1 }

/-- The `while (!this.isEmpty) { this.pop(); }` loop of `clear()`. -/
def clearLoop (q : SlimQueue T) : SlimQueue T :=
  if isEmpty q then q
  else clearLoop (pop q).2
termination_by q.size
decreasing_by
  rename_i h
  simp only [isEmpty, beq_iff_eq] at h
  simp only [pop, if_neg h]
  omega

/-- `clear()`: pop until empty, then `this._headIndex = 0`. -/
def clear (q : SlimQueue T) : SlimQueue T :=
  let emptied := clearLoop q
  { emptied with headIndex := 0 }

/-- The constructor: validates `initialCapacity` with `isNaturalNumber` and
`capacityIncrementFactor` with `_validateCapacityIncrementFactor` (in that
order), then allocates `new Array(initialCapacity).fill(undefined)` and sets
the fields. -/
def makeSlimQueue (T : Type) [Inhabited T] (initialCapacity : ℚ)
    (capacityIncrementFactor : ℚ) : Except QueueError (SlimQueue T) :=
  if ¬ isNaturalNumber initialCapacity then .error .invalidArgument
  else if capacityIncrementFactor < MIN_ALLOWED_CAPACITY_INCREMENT_FACTOR then
    .error .invalidArgument
  else if capacityIncrementFactor > MAX_ALLOWED_CAPACITY_INCREMENT_FACTOR then
    .error .invalidArgument
  else .ok
    { cyclicBuffer := List.replicate (Int.floor initialCapacity).toNat default
      headIndex := 0
      size := 0
      numberOfCapacityIncrements := 0
      capacityIncrementFactor := capacityIncrementFactor }

/-- The IEEE binary64 value a JavaScript engine stores for the literal
`1.1` — the growth factor the program actually holds when constructed with
`1.1`: `2476979795053773 / 2^51`, slightly above the rational `11/10`. -/
def JS_NUMBER_1_1 : ℚ := 2476979795053773 / 2251799813685248

/-- The well-formedness invariant maintained by every reachable queue state:
the head is a valid buffer index (so the buffer is nonempty), the size never
exceeds the capacity, and the growth factor is at least the validated
minimum `1.1`. -/
def WF (q : SlimQueue T) : Prop :=
  q.headIndex < q.cyclicBuffer.length ∧
  q.size ≤ q.cyclicBuffer.length ∧
  MIN_ALLOWED_CAPACITY_INCREMENT_FACTOR ≤ q.capacityIncrementFactor

instance (q : SlimQueue T) : Decidable (WF q) := by
  unfold WF; infer_instance

/-- Pushing a list of items in order, by folding `push`. -/
def pushList (q : SlimQueue T) (xs : List T) : SlimQueue T :=
  xs.foldl push q

/-- Popping `n` times in a row, collecting the successfully returned items
(stopping early if a pop fails). -/
def popList : ℕ → SlimQueue T → List T
  | 0, _ => []
  | n + 1, q =>
    match (pop q).1 with
    | Except.ok x => x :: popList n (pop q).2
    | Except.error _ => []

/-! ### List-level helper lemmas -/

theorem length_traverseIndicesFrom (len : ℕ) :
    ∀ (n i : ℕ), (traverseIndicesFrom len n i).length = n := by
  intro n
  induction n with
  | zero => intro i; rfl
  | succ m ih => intro i; simp [traverseIndicesFrom, ih]

theorem traverseIndicesFrom_eq_map (len : ℕ) :
    ∀ (n i : ℕ), i < len →
      traverseIndicesFrom len n i = (List.range n).map (fun j => (i + j) % len) := by
  intro n
  induction n with
  | zero => intro i _; rfl
  | succ m ih =>
    intro i hi
    have hlen : 0 < len := by omega
    have hstep : (if i + 1 = len then 0 else i + 1) = (i + 1) % len := by
      split
      · simp [*, Nat.mod_self]
      · exact (Nat.mod_eq_of_lt (by omega)).symm
    have hlt : (i + 1) % len < len := Nat.mod_lt _ (by omega)
    rw [traverseIndicesFrom, hstep, ih _ hlt, List.range_succ_eq_map]
    simp only [List.map_cons, List.map_map]
    congr 1
    · rw [Nat.add_zero, Nat.mod_eq_of_lt hi]
    · apply List.map_congr_left
      intro j _
      simp only [Function.comp_apply]
      rw [Nat.mod_add_mod]
      congr 1
      omega

theorem length_getSnapshot (q : SlimQueue T) : (getSnapshot q).length = q.size := by
  simp [getSnapshot, traverseInOrderIndices, length_traverseIndicesFrom]

theorem getSnapshot_eq_map (q : SlimQueue T) (hh : q.headIndex < q.cyclicBuffer.length) :
    getSnapshot q = (List.range q.size).map
      (fun j => q.cyclicBuffer.getD ((q.headIndex + j) % q.cyclicBuffer.length) default) := by
  rw [getSnapshot, traverseInOrderIndices, traverseIndicesFrom_eq_map _ _ _ hh,
    List.map_map]
  rfl

theorem mod_add_inj (len h : ℕ) {j1 j2 : ℕ} (hj1 : j1 < len) (hj2 : j2 < len)
    (he : (h + j1) % len = (h + j2) % len) : j1 = j2 := by
  have h1 : Nat.ModEq len (h + j1) (h + j2) := he
  have h2 : Nat.ModEq len j1 j2 := Nat.ModEq.add_left_cancel' h h1
  have h3 : j1 % len = j2 % len := h2
  rwa [Nat.mod_eq_of_lt hj1, Nat.mod_eq_of_lt hj2] at h3

theorem getD_set_ne {l : List T} {i j : ℕ} (h : i ≠ j) (v d : T) :
    (l.set i v).getD j d = l.getD j d := by
  simp [List.getD_eq_getElem?_getD, List.getElem?_set_ne h]

theorem getD_set_self {l : List T} {i : ℕ} (h : i < l.length) (v d : T) :
    (l.set i v).getD i d = v := by
  simp [List.getD_eq_getElem?_getD, List.getElem?_set_self h]

theorem getD_append_left {l t : List T} {j : ℕ} (h : j < l.length) (d : T) :
    (l ++ t).getD j d = l.getD j d := by
  simp [List.getD_eq_getElem?_getD, List.getElem?_append_left h]

theorem take_set_succ {l : List T} {k : ℕ} (h : k < l.length) (v : T) :
    (l.set k v).take (k + 1) = l.take k ++ [v] := by
  induction l generalizing k with
  | nil => simp at h
  | cons a as ih =>
    cases k with
    | zero => simp
    | succ m =>
      simp only [List.set_cons_succ, List.take_succ_cons, List.cons_append]
      rw [ih (by simpa using h)]

theorem drop_set_of_lt {l : List T} {k m : ℕ} (h : k < m) (v : T) :
    (l.set k v).drop m = l.drop m := by
  rw [List.drop_set, if_pos h]

theorem map_range_getD (l : List T) (n : ℕ) (hn : n ≤ l.length) (d : T) :
    (List.range n).map (fun j => l.getD j d) = l.take n := by
  apply List.ext_getElem
  · simp [Nat.min_eq_left hn]
  · intro i h1 h2
    simp only [List.getElem_map, List.getElem_range, List.getElem_take]
    rw [List.getD_eq_getElem l d (by simp at h1; omega)]

theorem drop_replicate (n : ℕ) (d : T) :
    ∀ m : ℕ, (List.replicate n d).drop m = List.replicate (n - m) d := by
  induction n with
  | zero => intro m; simp
  | succ k ih =>
    intro m
    cases m with
    | zero => simp
    | succ m2 => simpa [List.replicate_succ] using ih m2

/-! ### Characterizing the growth copy loop -/

theorem jsArraySet_of_lt {l : List T} {i : ℕ} (h : i < l.length) (v : T) :
    jsArraySet l i v = l.set i v := by
  rw [jsArraySet, if_pos h]

theorem growCopy_spec :
    ∀ (idxs : List ℕ) (oldBuf newBuf : List T) (k : ℕ),
      idxs.Nodup → (∀ i ∈ idxs, i < oldBuf.length) → k + idxs.length ≤ newBuf.length →
      growCopy oldBuf newBuf idxs k =
        newBuf.take k ++ idxs.map (fun i => oldBuf.getD i default) ++
          newBuf.drop (k + idxs.length) := by
  intro idxs
  induction idxs with
  | nil =>
    intro oldBuf newBuf k _ _ hk
    simp [growCopy, List.take_append_drop]
  | cons i rest ih =>
    intro oldBuf newBuf k hnd hin hk
    have hi : i < oldBuf.length := hin i (by simp)
    have hklt : k < newBuf.length := by
      have := hk; simp only [List.length_cons] at this; omega
    have hrest_le : (k + 1) + rest.length ≤ (jsArraySet newBuf k
        (oldBuf.getD i default)).length := by
      rw [jsArraySet_of_lt hklt, List.length_set]
      simp only [List.length_cons] at hk; omega
    have hrest_in : ∀ j ∈ rest, j < (jsArraySet oldBuf i default).length := by
      intro j hj
      rw [jsArraySet_of_lt hi, List.length_set]
      exact hin j (by simp [hj])
    rw [growCopy, ih _ _ _ hnd.of_cons hrest_in hrest_le]
    have hnotmem : i ∉ rest := (List.nodup_cons.mp hnd).1
    have hmapeq : rest.map (fun j => (jsArraySet oldBuf i default).getD j default) =
        rest.map (fun j => oldBuf.getD j default) := by
      apply List.map_congr_left
      intro j hj
      have hne : i ≠ j := fun he => hnotmem (he ▸ hj)
      rw [jsArraySet_of_lt hi]
      exact getD_set_ne hne _ _
    rw [hmapeq]
    have htake : (jsArraySet newBuf k (oldBuf.getD i default)).take (k + 1) =
        newBuf.take k ++ [oldBuf.getD i default] := by
      rw [jsArraySet_of_lt hklt]
      exact take_set_succ hklt _
    have hdrop : (jsArraySet newBuf k (oldBuf.getD i default)).drop
        (k + 1 + rest.length) = newBuf.drop (k + 1 + rest.length) := by
      rw [jsArraySet_of_lt hklt]
      exact drop_set_of_lt (by omega) _
    rw [htake, hdrop]
    have he2 : k + 1 + rest.length = k + (rest.length + 1) := by omega
    simp only [List.map_cons, List.length_cons, he2, List.append_assoc,
      List.singleton_append, List.cons_append, List.nil_append]

theorem traverseInOrderIndices_nodup (q : SlimQueue T)
    (hh : q.headIndex < q.cyclicBuffer.length) (hs : q.size ≤ q.cyclicBuffer.length) :
    (traverseInOrderIndices q).Nodup := by
  rw [traverseInOrderIndices, traverseIndicesFrom_eq_map _ _ _ hh]
  apply List.Nodup.map_on
  · intro j1 h1 j2 h2 he
    simp only [List.mem_range] at h1 h2
    exact mod_add_inj _ _ (by omega) (by omega) he
  · exact List.nodup_range _

theorem traverseInOrderIndices_lt (q : SlimQueue T)
    (hh : q.headIndex < q.cyclicBuffer.length) :
    ∀ i ∈ traverseInOrderIndices q, i < q.cyclicBuffer.length := by
  rw [traverseInOrderIndices, traverseIndicesFrom_eq_map _ _ _ hh]
  intro i hi
  simp only [List.mem_map, List.mem_range] at hi
  obtain ⟨j, _, hj⟩ := hi
  rw [← hj]
  exact Nat.mod_lt _ (by omega)

theorem natLog2go_spec : ∀ (fuel n : ℕ), 1 ≤ n → n ≤ fuel →
    2 ^ natLog2go fuel n ≤ n ∧ n < 2 ^ (natLog2go fuel n + 1) := by
  intro fuel
  induction fuel with
  | zero => intro n h1 h2; omega
  | succ m ih =>
    intro n h1 h2
    rw [natLog2go]
    split
    · rename_i h2n
      obtain ⟨ih1, ih2⟩ := ih (n / 2) (by omega) (by omega)
      constructor
      · rw [pow_succ]
        omega
      · rw [pow_succ]
        rw [pow_succ] at ih2
        omega
    · rename_i h2n
      simp only [pow_zero, pow_one]
      omega

theorem natLog2_spec (n : ℕ) (h : 1 ≤ n) :
    2 ^ natLog2 n ≤ n ∧ n < 2 ^ (natLog2 n + 1) :=
  natLog2go_spec n n h le_rfl

/-- `roundHalfEven` never undershoots by more than a half. -/
theorem roundHalfEven_ge (y : ℚ) : y - 1/2 ≤ ((roundHalfEven y : ℤ) : ℚ) := by
  have h1 := Int.floor_le y
  have h2 := Int.lt_floor_add_one y
  rw [roundHalfEven]
  split
  · rename_i h
    linarith
  · rename_i h
    split
    · rename_i h3
      push_cast
      linarith
    · rename_i h3
      have h4 : y - (Int.floor y : ℚ) ≤ 1/2 := not_lt.mp h3
      split
      · linarith
      · push_cast
        linarith

/-- Binary64 rounding moves a value `x ≥ 1` down by at most one part in
`2^53` — the error bound that makes geometric growth still make progress. -/
theorem roundToDouble_lower (x : ℚ) (hx : 1 ≤ x) :
    x - x / 2 ^ 53 ≤ roundToDouble x := by
  rw [roundToDouble, if_pos hx]
  have hfl1 : 1 ≤ Int.floor x := Int.le_floor.mpr (by exact_mod_cast hx)
  have hm1 : 1 ≤ (Int.floor x).toNat := by omega
  obtain ⟨hk1, _⟩ := natLog2_spec (Int.floor x).toNat hm1
  have hmx : ((Int.floor x).toNat : ℚ) ≤ x := by
    have h0 : (((Int.floor x).toNat : ℤ) : ℚ) ≤ x := by
      rw [Int.toNat_of_nonneg (by omega)]
      exact Int.floor_le x
    exact_mod_cast h0
  have h2k : (2 : ℚ) ^ natLog2 (Int.floor x).toNat ≤ x := by
    refine le_trans ?_ hmx
    exact_mod_cast hk1
  have hr := roundHalfEven_ge (x * 2 ^ 52 / 2 ^ natLog2 (Int.floor x).toNat)
  have hkpos : (0 : ℚ) < 2 ^ natLog2 (Int.floor x).toNat := by positivity
  calc x - x / 2 ^ 53
      ≤ x - (2 : ℚ) ^ natLog2 (Int.floor x).toNat / 2 ^ 53 := by
        have hdiv : (2 : ℚ) ^ natLog2 (Int.floor x).toNat / 2 ^ 53 ≤ x / 2 ^ 53 :=
          (div_le_div_right (by positivity)).mpr h2k
        linarith
    _ = (x * 2 ^ 52 / 2 ^ natLog2 (Int.floor x).toNat - 1/2) *
          2 ^ natLog2 (Int.floor x).toNat / 2 ^ 52 := by
        field_simp
        ring
    _ ≤ ((roundHalfEven (x * 2 ^ 52 / 2 ^ natLog2 (Int.floor x).toNat) : ℤ) : ℚ) *
          2 ^ natLog2 (Int.floor x).toNat / 2 ^ 52 := by
        gcongr

/-- When the growth factor is at least `1.1` and the capacity is at least 1,
`Math.ceil` of the binary64 product `capacity * factor` strictly exceeds the
capacity: the half-ulp rounding error (at most one part in `2^53`) cannot
eat the 10 % head-room. -/
theorem ceil_growth_gt (c : ℕ) (f : ℚ) (hc : 1 ≤ c)
    (hf : MIN_ALLOWED_CAPACITY_INCREMENT_FACTOR ≤ f) :
    c < (Int.ceil (roundToDouble ((c : ℚ) * f))).toNat := by
  have hf11 : (11 : ℚ)/10 ≤ f := hf
  have hc0 : (0 : ℚ) < (c : ℚ) := by exact_mod_cast hc
  have hc1 : (1 : ℚ) ≤ (c : ℚ) := by exact_mod_cast hc
  have hx1 : (1 : ℚ) ≤ (c : ℚ) * f := by
    have := mul_le_mul hc1 (le_trans (show (1 : ℚ) ≤ 11/10 by norm_num) hf11)
      (show (0 : ℚ) ≤ 1 by norm_num) (le_of_lt hc0)
    linarith
  have hlow := roundToDouble_lower _ hx1
  have hN : ((2 : ℚ) ^ 53) = 9007199254740992 := by norm_num
  have hfkey : (1 : ℚ) < f - f / 2 ^ 53 := by
    rw [hN]
    nlinarith
  have hgt : (c : ℚ) < (c : ℚ) * f - ((c : ℚ) * f) / 2 ^ 53 := by
    have hstep : (c : ℚ) * 1 < (c : ℚ) * (f - f / 2 ^ 53) :=
      mul_lt_mul_of_pos_left hfkey hc0
    calc (c : ℚ) = (c : ℚ) * 1 := by ring
      _ < (c : ℚ) * (f - f / 2 ^ 53) := hstep
      _ = (c : ℚ) * f - ((c : ℚ) * f) / 2 ^ 53 := by ring
  have hz : (c : ℤ) < Int.ceil (roundToDouble ((c : ℚ) * f)) := by
    rw [Int.lt_ceil]
    push_cast
    linarith
  omega

/-- A queue whose head sits at index 0 has the first `size` buffer entries as
its snapshot. -/
theorem getSnapshot_mk_head0 (buf : List T) (n m : ℕ) (f : ℚ)
    (hn : n ≤ buf.length) (h0 : 0 < buf.length) :
    getSnapshot (⟨buf, 0, n, m, f⟩ : SlimQueue T) = buf.take n := by
  rw [getSnapshot_eq_map _ h0]
  simp only [Nat.zero_add]
  have hcong : ∀ j ∈ List.range n,
      buf.getD (j % buf.length) default = buf.getD j default := by
    intro j hj
    rw [List.mem_range] at hj
    rw [Nat.mod_eq_of_lt (by omega)]
  rw [List.map_congr_left hcong, map_range_getD _ _ hn]

/-! ### Behaviour of `_increaseCapacityIfNecessary` -/

theorem increaseCapacity_of_lt (q : SlimQueue T) (h : q.size < q.cyclicBuffer.length) :
    increaseCapacityIfNecessary q = q := by
  simp only [increaseCapacityIfNecessary, if_pos h]

theorem grow_spec (q : SlimQueue T) (hWF : WF q)
    (hfull : ¬ q.size < q.cyclicBuffer.length) :
    (increaseCapacityIfNecessary q).headIndex = 0 ∧
    (increaseCapacityIfNecessary q).size = q.size ∧
    (increaseCapacityIfNecessary q).capacityIncrementFactor = q.capacityIncrementFactor ∧
    (increaseCapacityIfNecessary q).numberOfCapacityIncrements =
      q.numberOfCapacityIncrements + 1 ∧
    (increaseCapacityIfNecessary q).cyclicBuffer.length =
      (Int.ceil (roundToDouble
        ((q.cyclicBuffer.length : ℚ) * q.capacityIncrementFactor))).toNat ∧
    q.cyclicBuffer.length < (increaseCapacityIfNecessary q).cyclicBuffer.length ∧
    (increaseCapacityIfNecessary q).cyclicBuffer =
      getSnapshot q ++ List.replicate
        ((increaseCapacityIfNecessary q).cyclicBuffer.length - q.size) default ∧
    getSnapshot (increaseCapacityIfNecessary q) = getSnapshot q ∧
    WF (increaseCapacityIfNecessary q) := by
  obtain ⟨hh, hs, hf⟩ := hWF
  have hlen1 : 1 ≤ q.cyclicBuffer.length := by omega
  have hsize : q.size = q.cyclicBuffer.length := by omega
  have hgt : q.cyclicBuffer.length <
      (Int.ceil (roundToDouble
        ((q.cyclicBuffer.length : ℚ) * q.capacityIncrementFactor))).toNat :=
    ceil_growth_gt _ _ hlen1 hf
  have hq1 : increaseCapacityIfNecessary q =
      { q with
          cyclicBuffer := growCopy q.cyclicBuffer
            (List.replicate
              ((Int.ceil (roundToDouble ((q.cyclicBuffer.length : ℚ) *
                q.capacityIncrementFactor))).toNat) default)
            (traverseInOrderIndices q) 0
          headIndex := 0
          numberOfCapacityIncrements := q.numberOfCapacityIncrements + 1 } := by
    simp only [increaseCapacityIfNecessary, if_neg hfull]
  have hidxlen : (traverseInOrderIndices q).length = q.size := by
    simp [traverseInOrderIndices, length_traverseIndicesFrom]
  have hbuf : growCopy q.cyclicBuffer
      (List.replicate
        ((Int.ceil (roundToDouble ((q.cyclicBuffer.length : ℚ) *
          q.capacityIncrementFactor))).toNat) default)
      (traverseInOrderIndices q) 0 =
      getSnapshot q ++ List.replicate
        ((Int.ceil (roundToDouble ((q.cyclicBuffer.length : ℚ) *
          q.capacityIncrementFactor))).toNat - q.size) default := by
    rw [growCopy_spec _ _ _ _ (traverseInOrderIndices_nodup q hh hs)
      (traverseInOrderIndices_lt q hh)
      (by rw [List.length_replicate, hidxlen]; omega)]
    rw [List.take_zero, List.nil_append, Nat.zero_add, hidxlen, drop_replicate]
    rfl
  have hsnaplen : (getSnapshot q).length = q.size := length_getSnapshot q
  have hblen : (growCopy q.cyclicBuffer
      (List.replicate
        ((Int.ceil (roundToDouble ((q.cyclicBuffer.length : ℚ) *
          q.capacityIncrementFactor))).toNat) default)
      (traverseInOrderIndices q) 0).length =
      (Int.ceil (roundToDouble
        ((q.cyclicBuffer.length : ℚ) * q.capacityIncrementFactor))).toNat := by
    rw [hbuf, List.length_append, hsnaplen, List.length_replicate]
    omega
  rw [hq1]
  refine ⟨rfl, rfl, rfl, rfl, hblen, by rw [hblen]; exact hgt, by rw [hblen]; exact hbuf, ?_, ?_⟩
  · rw [getSnapshot_mk_head0 _ _ _ _ (by rw [hblen]; show q.size ≤ _; omega)
      (by rw [hblen]; show 0 < _; omega), hbuf, List.take_left' (by omega)]
  · exact ⟨by show 0 < _; rw [hblen]; omega, by show q.size ≤ _; rw [hblen]; omega, hf⟩

/-! ### Behaviour of `push` -/

theorem push_eq (q : SlimQueue T) (x : T) :
    push q x =
      { increaseCapacityIfNecessary q with
          cyclicBuffer := jsArraySet (increaseCapacityIfNecessary q).cyclicBuffer
            (calculateExclusiveTailIndex (increaseCapacityIfNecessary q)) x
          size := (increaseCapacityIfNecessary q).size + 1 } := rfl

theorem calculateExclusiveTailIndex_eq (q : SlimQueue T)
    (hs : q.headIndex + q.size < 2 * q.cyclicBuffer.length) :
    calculateExclusiveTailIndex q =
      (q.headIndex + q.size) % q.cyclicBuffer.length := by
  simp only [calculateExclusiveTailIndex]
  split
  · exact (Nat.mod_eq_of_lt (by omega)).symm
  · rename_i hge
    rw [Nat.mod_eq_sub_mod (by omega), Nat.mod_eq_of_lt (by omega)]

/-- The effect of the tail write plus size increment performed by `push`,
on a queue that is not full. -/
theorem pushCore_spec (r : SlimQueue T) (x : T)
    (hh : r.headIndex < r.cyclicBuffer.length)
    (hs : r.size < r.cyclicBuffer.length)
    (hf : MIN_ALLOWED_CAPACITY_INCREMENT_FACTOR ≤ r.capacityIncrementFactor) :
    ({ r with
        cyclicBuffer := jsArraySet r.cyclicBuffer (calculateExclusiveTailIndex r) x
        size := r.size + 1 } : SlimQueue T).cyclicBuffer.length =
      r.cyclicBuffer.length ∧
    getSnapshot ({ r with
        cyclicBuffer := jsArraySet r.cyclicBuffer (calculateExclusiveTailIndex r) x
        size := r.size + 1 } : SlimQueue T) = getSnapshot r ++ [x] ∧
    WF ({ r with
        cyclicBuffer := jsArraySet r.cyclicBuffer (calculateExclusiveTailIndex r) x
        size := r.size + 1 } : SlimQueue T) := by
  have hL0 : 0 < r.cyclicBuffer.length := by omega
  have ht : calculateExclusiveTailIndex r =
      (r.headIndex + r.size) % r.cyclicBuffer.length :=
    calculateExclusiveTailIndex_eq r (by omega)
  have htlt : calculateExclusiveTailIndex r < r.cyclicBuffer.length := by
    rw [ht]; exact Nat.mod_lt _ hL0
  have hset : jsArraySet r.cyclicBuffer (calculateExclusiveTailIndex r) x =
      r.cyclicBuffer.set (calculateExclusiveTailIndex r) x := jsArraySet_of_lt htlt _
  have hlen : (jsArraySet r.cyclicBuffer (calculateExclusiveTailIndex r) x).length =
      r.cyclicBuffer.length := by rw [hset, List.length_set]
  refine ⟨hlen, ?_, ?_⟩
  · rw [getSnapshot_eq_map _ (by show r.headIndex < _; rw [hlen]; omega)]
    show List.map _ (List.range (r.size + 1)) = _
    have hLrw : (({ r with
        cyclicBuffer := jsArraySet r.cyclicBuffer (calculateExclusiveTailIndex r) x
        size := r.size + 1 } : SlimQueue T)).cyclicBuffer.length =
        r.cyclicBuffer.length := hlen
    rw [List.range_succ, List.map_append]
    have hpart1 : ∀ j ∈ List.range r.size,
        (jsArraySet r.cyclicBuffer (calculateExclusiveTailIndex r) x).getD
          ((r.headIndex + j) % (jsArraySet r.cyclicBuffer
            (calculateExclusiveTailIndex r) x).length) default =
        r.cyclicBuffer.getD ((r.headIndex + j) % r.cyclicBuffer.length) default := by
      intro j hj
      rw [List.mem_range] at hj
      rw [hlen, hset]
      apply getD_set_ne
      rw [ht]
      intro he
      have := mod_add_inj r.cyclicBuffer.length r.headIndex
        hs (by omega) he
      omega
    have hpart2 :
        (jsArraySet r.cyclicBuffer (calculateExclusiveTailIndex r) x).getD
          ((r.headIndex + r.size) % (jsArraySet r.cyclicBuffer
            (calculateExclusiveTailIndex r) x).length) default = x := by
      rw [hlen, hset, ← ht]
      exact getD_set_self (by rwa [← hlen, hset, List.length_set]) _ _
    rw [List.map_congr_left hpart1]
    rw [getSnapshot_eq_map r hh]
    simp only [List.map_cons, List.map_nil, hpart2]
  · exact ⟨by show r.headIndex < _; rw [hlen]; omega,
      by show r.size + 1 ≤ _; rw [hlen]; omega, hf⟩

theorem push_spec (q : SlimQueue T) (x : T) (hWF : WF q) :
    WF (push q x) ∧
    (push q x).size = q.size + 1 ∧
    getSnapshot (push q x) = getSnapshot q ++ [x] ∧
    (push q x).capacityIncrementFactor = q.capacityIncrementFactor ∧
    q.cyclicBuffer.length ≤ (push q x).cyclicBuffer.length ∧
    (q.size < q.cyclicBuffer.length →
      (push q x).cyclicBuffer.length = q.cyclicBuffer.length ∧
      (push q x).numberOfCapacityIncrements = q.numberOfCapacityIncrements) ∧
    (¬ q.size < q.cyclicBuffer.length →
      (push q x).cyclicBuffer.length =
        (Int.ceil (roundToDouble
        ((q.cyclicBuffer.length : ℚ) * q.capacityIncrementFactor))).toNat ∧
      (push q x).numberOfCapacityIncrements = q.numberOfCapacityIncrements + 1) := by
  by_cases hlt : q.size < q.cyclicBuffer.length
  · have hq1 : increaseCapacityIfNecessary q = q := increaseCapacity_of_lt q hlt
    have hpush : push q x =
        { q with
            cyclicBuffer := jsArraySet q.cyclicBuffer (calculateExclusiveTailIndex q) x
            size := q.size + 1 } := by
      rw [push_eq, hq1]
    obtain ⟨clen, csnap, cwf⟩ := pushCore_spec q x hWF.1 hlt hWF.2.2
    rw [hpush]
    exact ⟨cwf, rfl, csnap, rfl, by rw [clen], fun _ => ⟨clen, rfl⟩,
      fun hc => absurd hlt hc⟩
  · obtain ⟨gh, gs, gf, gi, glen, ggt, gbuf, gsnap, gWF⟩ := grow_spec q hWF hlt
    have hs1 : (increaseCapacityIfNecessary q).size <
        (increaseCapacityIfNecessary q).cyclicBuffer.length := by
      rw [gs]; have := hWF.2.1; omega
    obtain ⟨clen, csnap, cwf⟩ := pushCore_spec (increaseCapacityIfNecessary q) x
      gWF.1 hs1 gWF.2.2
    rw [push_eq]
    refine ⟨cwf, ?_, ?_, ?_, ?_, fun hc => absurd hc hlt, fun _ => ⟨?_, ?_⟩⟩
    · show (increaseCapacityIfNecessary q).size + 1 = q.size + 1
      rw [gs]
    · rw [csnap, gsnap]
    · show (increaseCapacityIfNecessary q).capacityIncrementFactor = _
      rw [gf]
    · show q.cyclicBuffer.length ≤ _
      rw [clen]; omega
    · rw [clen, glen]
    · show (increaseCapacityIfNecessary q).numberOfCapacityIncrements = _
      rw [gi]

/-! ### Behaviour of `pop`, `firstIn` and `clear` -/

theorem firstIn_spec (q : SlimQueue T) (hpos : 0 < q.size) :
    firstIn q = .ok (q.cyclicBuffer.getD q.headIndex default) := by
  rw [firstIn, if_neg (by omega)]

theorem pop_spec (q : SlimQueue T) (hWF : WF q) (hpos : 0 < q.size) :
    (pop q).1 = .ok (q.cyclicBuffer.getD q.headIndex default) ∧
    getSnapshot q = q.cyclicBuffer.getD q.headIndex default :: getSnapshot (pop q).2 ∧
    (pop q).2.size = q.size - 1 ∧
    (pop q).2.cyclicBuffer.length = q.cyclicBuffer.length ∧
    (pop q).2.numberOfCapacityIncrements = q.numberOfCapacityIncrements ∧
    (pop q).2.capacityIncrementFactor = q.capacityIncrementFactor ∧
    WF (pop q).2 := by
  obtain ⟨hh, hs, hf⟩ := hWF
  have hlen0 : 0 < q.cyclicBuffer.length := by omega
  have hne : ¬ q.size = 0 := by omega
  have hpop : pop q = (Except.ok (q.cyclicBuffer.getD q.headIndex default),
      { q with
          cyclicBuffer := q.cyclicBuffer.set q.headIndex default
          headIndex :=
            if q.headIndex + 1 = (q.cyclicBuffer.set q.headIndex default).length
            then 0 else q.headIndex + 1
          size := q.size - 1 }) := by
    simp only [pop, if_neg hne]
  have hH2 : (if q.headIndex + 1 = q.cyclicBuffer.length
      then 0 else q.headIndex + 1) = (q.headIndex + 1) % q.cyclicBuffer.length := by
    split
    · rename_i he; rw [he, Nat.mod_self]
    · rename_i hne2; rw [Nat.mod_eq_of_lt (by omega)]
  have hH : (if q.headIndex + 1 = (q.cyclicBuffer.set q.headIndex default).length
      then 0 else q.headIndex + 1) = (q.headIndex + 1) % q.cyclicBuffer.length := by
    rw [List.length_set]
    exact hH2
  have hsnap2 : getSnapshot (pop q).2 = (List.range (q.size - 1)).map
      (fun j => q.cyclicBuffer.getD
        ((q.headIndex + (j + 1)) % q.cyclicBuffer.length) default) := by
    rw [hpop]
    rw [getSnapshot_eq_map _ (by
      show (if q.headIndex + 1 = (q.cyclicBuffer.set q.headIndex default).length
        then 0 else q.headIndex + 1) < (q.cyclicBuffer.set q.headIndex default).length
      rw [hH, List.length_set]
      exact Nat.mod_lt _ hlen0)]
    show List.map _ (List.range (q.size - 1)) = _
    apply List.map_congr_left
    intro j hj
    rw [List.mem_range] at hj
    show (q.cyclicBuffer.set q.headIndex default).getD
      (((if q.headIndex + 1 = (q.cyclicBuffer.set q.headIndex default).length
        then 0 else q.headIndex + 1) + j) %
        (q.cyclicBuffer.set q.headIndex default).length) default = _
    rw [hH, List.length_set, Nat.mod_add_mod]
    rw [getD_set_ne]
    · have harg : q.headIndex + 1 + j = q.headIndex + (j + 1) := by omega
      rw [harg]
    · intro he
      have he2 : (q.headIndex + 0) % q.cyclicBuffer.length =
          (q.headIndex + (1 + j)) % q.cyclicBuffer.length := by
        rw [Nat.add_zero, Nat.mod_eq_of_lt hh, he]
        congr 1
        omega
      have h0 := mod_add_inj q.cyclicBuffer.length q.headIndex (by omega) (by omega) he2
      omega
  refine ⟨by rw [hpop], ?_, by rw [hpop],
    by rw [hpop]; show (q.cyclicBuffer.set q.headIndex default).length = _;
       exact List.length_set _ _ _,
    by rw [hpop], by rw [hpop], ?_⟩
  · rw [hsnap2, getSnapshot_eq_map q hh]
    obtain ⟨n, hqn⟩ : ∃ n, q.size = n + 1 := ⟨q.size - 1, by omega⟩
    rw [hqn]
    simp only [Nat.add_sub_cancel]
    rw [List.range_succ_eq_map, List.map_cons, List.map_map]
    congr 1
    rw [Nat.add_zero, Nat.mod_eq_of_lt hh]
  · rw [hpop]
    refine ⟨?_, ?_, hf⟩
    · show (if q.headIndex + 1 = (q.cyclicBuffer.set q.headIndex default).length
        then 0 else q.headIndex + 1) < (q.cyclicBuffer.set q.headIndex default).length
      rw [hH, List.length_set]
      exact Nat.mod_lt _ hlen0
    · show q.size - 1 ≤ (q.cyclicBuffer.set q.headIndex default).length
      rw [List.length_set]
      omega

theorem pop_empty (q : SlimQueue T) (h : q.size = 0) :
    pop q = (.error .emptyQueue, q) := by
  rw [pop, if_pos h]

theorem firstIn_empty (q : SlimQueue T) (h : q.size = 0) :
    firstIn q = .error .emptyQueue := by
  rw [firstIn, if_pos h]

theorem clearLoop_spec : ∀ (n : ℕ) (q : SlimQueue T), q.size ≤ n →
    (clearLoop q).size = 0 ∧
    (clearLoop q).cyclicBuffer.length = q.cyclicBuffer.length ∧
    (clearLoop q).numberOfCapacityIncrements = q.numberOfCapacityIncrements ∧
    (clearLoop q).capacityIncrementFactor = q.capacityIncrementFactor := by
  intro n
  induction n with
  | zero =>
    intro q hq
    have h0 : q.size = 0 := by omega
    rw [clearLoop, if_pos (by simp [isEmpty, h0])]
    exact ⟨h0, rfl, rfl, rfl⟩
  | succ m ih =>
    intro q hq
    by_cases h0 : q.size = 0
    · rw [clearLoop, if_pos (by simp [isEmpty, h0])]
      exact ⟨h0, rfl, rfl, rfl⟩
    · rw [clearLoop, if_neg (by simp [isEmpty, h0])]
      have hpop2 : (pop q).2.size = q.size - 1 ∧
          (pop q).2.cyclicBuffer.length = q.cyclicBuffer.length ∧
          (pop q).2.numberOfCapacityIncrements = q.numberOfCapacityIncrements ∧
          (pop q).2.capacityIncrementFactor = q.capacityIncrementFactor := by
        simp [pop, if_neg h0]
      obtain ⟨i1, i2, i3, i4⟩ := ih (pop q).2 (by omega)
      exact ⟨i1, by rw [i2, hpop2.2.1], by rw [i3, hpop2.2.2.1],
        by rw [i4, hpop2.2.2.2]⟩

theorem clear_spec (q : SlimQueue T) :
    (clear q).size = 0 ∧ (clear q).headIndex = 0 ∧
    (clear q).cyclicBuffer.length = q.cyclicBuffer.length ∧
    (clear q).numberOfCapacityIncrements = q.numberOfCapacityIncrements ∧
    (clear q).capacityIncrementFactor = q.capacityIncrementFactor := by
  obtain ⟨h1, h2, h3, h4⟩ := clearLoop_spec q.size q le_rfl
  exact ⟨h1, rfl, h2, h3, h4⟩

/-! ### Sequences of pushes and pops -/

theorem pushList_spec : ∀ (xs : List T) (q : SlimQueue T), WF q →
    WF (pushList q xs) ∧
    getSnapshot (pushList q xs) = getSnapshot q ++ xs ∧
    (pushList q xs).capacityIncrementFactor = q.capacityIncrementFactor ∧
    q.cyclicBuffer.length ≤ (pushList q xs).cyclicBuffer.length := by
  intro xs
  induction xs with
  | nil =>
    intro q h
    exact ⟨h, by simp [pushList], rfl, le_rfl⟩
  | cons x rest ih =>
    intro q h
    obtain ⟨pWF, psize, psnap, pfac, plen, _, _⟩ := push_spec q x h
    obtain ⟨iWF, isnap, ifac, ilen⟩ := ih (push q x) pWF
    have hfold : pushList q (x :: rest) = pushList (push q x) rest := rfl
    rw [hfold]
    refine ⟨iWF, ?_, by rw [ifac, pfac], le_trans plen ilen⟩
    rw [isnap, psnap]
    simp

theorem popList_spec : ∀ (n : ℕ) (q : SlimQueue T), WF q → n ≤ q.size →
    popList n q = (getSnapshot q).take n := by
  intro n
  induction n with
  | zero => intro q _ _; simp [popList]
  | succ m ih =>
    intro q hWF hn
    have hpos : 0 < q.size := by omega
    obtain ⟨p1, psnap, psize, plen, pinc, pfac, pWF⟩ := pop_spec q hWF hpos
    simp only [popList, p1]
    rw [ih (pop q).2 pWF (by omega), psnap, List.take_succ_cons]

/-! ### Behaviour of the constructor -/

theorem makeSlimQueue_ok (c f : ℚ) (h1 : isNaturalNumber c = true)
    (h2 : MIN_ALLOWED_CAPACITY_INCREMENT_FACTOR ≤ f)
    (h3 : f ≤ MAX_ALLOWED_CAPACITY_INCREMENT_FACTOR) :
    makeSlimQueue T c f = .ok
      { cyclicBuffer := List.replicate (Int.floor c).toNat default
        headIndex := 0
        size := 0
        numberOfCapacityIncrements := 0
        capacityIncrementFactor := f } := by
  rw [makeSlimQueue, if_neg (by simp [h1]), if_neg (not_lt.mpr h2),
    if_neg (not_lt.mpr h3)]

theorem makeSlimQueue_error (c f : ℚ)
    (h : ¬ (isNaturalNumber c = true ∧ MIN_ALLOWED_CAPACITY_INCREMENT_FACTOR ≤ f ∧
      f ≤ MAX_ALLOWED_CAPACITY_INCREMENT_FACTOR)) :
    makeSlimQueue T c f = .error .invalidArgument := by
  rw [makeSlimQueue]
  by_cases h1 : isNaturalNumber c = true
  · rw [if_neg (by simp [h1])]
    by_cases h2 : f < MIN_ALLOWED_CAPACITY_INCREMENT_FACTOR
    · rw [if_pos h2]
    · rw [if_neg h2]
      have h3 : f > MAX_ALLOWED_CAPACITY_INCREMENT_FACTOR := by
        push_neg at h
        exact h h1 (not_lt.mp h2)
      rw [if_pos h3]
  · rw [if_pos (by simp [h1])]

theorem makeSlimQueue_WF (c f : ℚ) (q : SlimQueue T)
    (h : makeSlimQueue T c f = .ok q) : WF q := by
  by_cases h1 : isNaturalNumber c = true
  · by_cases h2 : MIN_ALLOWED_CAPACITY_INCREMENT_FACTOR ≤ f
    · by_cases h3 : f ≤ MAX_ALLOWED_CAPACITY_INCREMENT_FACTOR
      · rw [makeSlimQueue_ok c f h1 h2 h3] at h
        cases h
        have hfloor : 1 ≤ Int.floor c := by
          rw [isNaturalNumber] at h1
          simp only [Bool.and_eq_true, decide_eq_true_eq] at h1
          exact h1.1
        refine ⟨?_, ?_, h2⟩
        · show 0 < (List.replicate (Int.floor c).toNat default).length
          rw [List.length_replicate]
          omega
        · show 0 ≤ (List.replicate (Int.floor c).toNat default).length
          omega
      · rw [makeSlimQueue_error c f (by tauto)] at h
        cases h
    · rw [makeSlimQueue_error c f (by tauto)] at h
      cases h
  · rw [makeSlimQueue_error c f (by tauto)] at h
    cases h

/-! ### Claim theorems -/

set_option maxRecDepth 8000

section ClaimTheorems

attribute [local semireducible] Rat.mul Rat.inv Rat.add Rat.sub

/-- C1 (FIFO order): from any well-formed empty queue state — any capacity,
head position and growth factor, including states and push sequences that
force wrap-around and capacity growth — pushing `x₁,…,xₙ` with no interleaved
pops and then popping `n` times returns exactly `x₁,…,xₙ` in order. -/
theorem fifo_order (T : Type) [Inhabited T] (q : SlimQueue T) (xs : List T)
    (hWF : WF q) (hempty : q.size = 0) :
    popList xs.length (pushList q xs) = xs := by
  obtain ⟨pWF, psnap, _, _⟩ := pushList_spec xs q hWF
  have hsnap0 : getSnapshot q = [] := by
    have hl := length_getSnapshot q
    rw [hempty] at hl
    exact List.eq_nil_of_length_eq_zero hl
  rw [hsnap0, List.nil_append] at psnap
  have hsize : (pushList q xs).size = xs.length := by
    have hl := length_getSnapshot (pushList q xs)
    rw [psnap] at hl
    omega
  rw [popList_spec _ _ pWF (le_of_eq hsize.symm), psnap, List.take_length]

/-- Witness for C1 at a concrete input: an empty 2-slot queue receives three
pushes (forcing growth and wrap book-keeping) and pops them back in order. -/
theorem fifo_order_witness :
    WF (⟨[0, 0], 0, 0, 0, 3/2⟩ : SlimQueue ℕ) ∧
    (⟨[0, 0], 0, 0, 0, 3/2⟩ : SlimQueue ℕ).size = 0 ∧
    popList 3 (pushList (⟨[0, 0], 0, 0, 0, 3/2⟩ : SlimQueue ℕ) [4, 5, 6]) = [4, 5, 6] :=
  ⟨by decide, rfl, fifo_order ℕ ⟨[0, 0], 0, 0, 0, 3/2⟩ [4, 5, 6] (by decide) rfl⟩

/-- C2 (empty-queue failure and atomicity): with `size = 0`, `firstIn` and
`pop` both fail with `EmptyQueue` and the failing `pop` leaves the state
exactly as it was (the `throw` happens before any mutation); with
`size > 0`, neither operation fails. -/
theorem empty_queue_failure (T : Type) [Inhabited T] (q : SlimQueue T) :
    (q.size = 0 →
      firstIn q = .error .emptyQueue ∧ pop q = (.error .emptyQueue, q)) ∧
    (0 < q.size →
      (∃ x, firstIn q = .ok x) ∧ (∃ x, (pop q).1 = .ok x)) := by
  constructor
  · intro h
    exact ⟨firstIn_empty q h, pop_empty q h⟩
  · intro h
    refine ⟨⟨_, firstIn_spec q h⟩, ⟨q.cyclicBuffer.getD q.headIndex default, ?_⟩⟩
    simp only [pop, if_neg (show ¬ q.size = 0 by omega)]

/-- Witness for C2 at concrete inputs: an empty queue (both operations fail,
`pop` leaves it untouched) and a one-item queue (neither fails). -/
theorem empty_queue_failure_witness :
    firstIn (⟨[0], 0, 0, 0, 3/2⟩ : SlimQueue ℕ) = .error .emptyQueue ∧
    pop (⟨[0], 0, 0, 0, 3/2⟩ : SlimQueue ℕ) =
      (.error .emptyQueue, ⟨[0], 0, 0, 0, 3/2⟩) ∧
    (∃ x, firstIn (⟨[7], 0, 1, 0, 3/2⟩ : SlimQueue ℕ) = .ok x) ∧
    (∃ x, (pop (⟨[7], 0, 1, 0, 3/2⟩ : SlimQueue ℕ)).1 = .ok x) :=
  ⟨((empty_queue_failure ℕ ⟨[0], 0, 0, 0, 3/2⟩).1 rfl).1,
   ((empty_queue_failure ℕ ⟨[0], 0, 0, 0, 3/2⟩).1 rfl).2,
   ((empty_queue_failure ℕ ⟨[7], 0, 1, 0, 3/2⟩).2 (by decide)).1,
   ((empty_queue_failure ℕ ⟨[7], 0, 1, 0, 3/2⟩).2 (by decide)).2⟩

/-- C5 (snapshot fidelity): `getSnapshot` has length `size`, and equals the
list produced by `size` consecutive pops — so its k-th element is exactly
what the (k+1)-th `pop` would return.  `getSnapshot` itself returns a fresh
list and takes no state, so it mutates nothing. -/
theorem snapshot_fidelity (T : Type) [Inhabited T] (q : SlimQueue T) (hWF : WF q) :
    (getSnapshot q).length = q.size ∧ popList q.size q = getSnapshot q := by
  refine ⟨length_getSnapshot q, ?_⟩
  rw [popList_spec q.size q hWF le_rfl]
  exact List.take_of_length_le (le_of_eq (length_getSnapshot q))

/-- Witness for C5 at a concrete input: a wrapped-around queue (head at the
last physical index) whose snapshot agrees with its pop sequence. -/
theorem snapshot_fidelity_witness :
    WF (⟨[8, 9, 7], 2, 3, 1, 3/2⟩ : SlimQueue ℕ) ∧
    (getSnapshot (⟨[8, 9, 7], 2, 3, 1, 3/2⟩ : SlimQueue ℕ)).length =
      (⟨[8, 9, 7], 2, 3, 1, 3/2⟩ : SlimQueue ℕ).size ∧
    popList 3 (⟨[8, 9, 7], 2, 3, 1, 3/2⟩ : SlimQueue ℕ) =
      getSnapshot (⟨[8, 9, 7], 2, 3, 1, 3/2⟩ : SlimQueue ℕ) :=
  ⟨by decide, (snapshot_fidelity ℕ ⟨[8, 9, 7], 2, 3, 1, 3/2⟩ (by decide)).1,
   (snapshot_fidelity ℕ ⟨[8, 9, 7], 2, 3, 1, 3/2⟩ (by decide)).2⟩

/-- C6 (size accounting): `push` increases `size` by exactly one, a
successful `pop` decreases it by exactly one, a failing `pop` changes
nothing, and `clear` resets it to zero — hence `size` equals pushes minus
successful pops since the last clear/construction. -/
theorem size_accounting (T : Type) [Inhabited T] (q : SlimQueue T) (x : T)
    (hWF : WF q) :
    (push q x).size = q.size + 1 ∧
    (0 < q.size → (pop q).2.size = q.size - 1) ∧
    (q.size = 0 → (pop q).2 = q) ∧
    (clear q).size = 0 := by
  refine ⟨(push_spec q x hWF).2.1, fun h => (pop_spec q hWF h).2.2.1,
    fun h => by rw [pop_empty q h], (clear_spec q).1⟩

/-- Witness for C6 at a concrete input: a one-item queue. -/
theorem size_accounting_witness :
    WF (⟨[7, 0], 0, 1, 0, 3/2⟩ : SlimQueue ℕ) ∧
    (push (⟨[7, 0], 0, 1, 0, 3/2⟩ : SlimQueue ℕ) 5).size = 2 ∧
    (pop (⟨[7, 0], 0, 1, 0, 3/2⟩ : SlimQueue ℕ)).2.size = 0 ∧
    (clear (⟨[7, 0], 0, 1, 0, 3/2⟩ : SlimQueue ℕ)).size = 0 :=
  ⟨by decide,
   (size_accounting ℕ ⟨[7, 0], 0, 1, 0, 3/2⟩ 5 (by decide)).1,
   (size_accounting ℕ ⟨[7, 0], 0, 1, 0, 3/2⟩ 5 (by decide)).2.1 (by decide),
   (size_accounting ℕ ⟨[7, 0], 0, 1, 0, 3/2⟩ 5 (by decide)).2.2.2⟩

/-- C3 (construction validation): construction fails with `InvalidArgument`
exactly when `initialCapacity` is not a positive integer
(`isNaturalNumber`: `floor(x) == x` and `x ≥ 1`) or the growth factor lies
outside `[1.1, 2.0]`; on success the queue has a buffer of exactly
`initialCapacity` empty (`undefined`) slots, `head = 0`, `size = 0` and
zero capacity increments. -/
theorem construction_validation (T : Type) [Inhabited T] (c f : ℚ) :
    (makeSlimQueue T c f = .error .invalidArgument ↔
      ¬ (isNaturalNumber c = true ∧ MIN_ALLOWED_CAPACITY_INCREMENT_FACTOR ≤ f ∧
        f ≤ MAX_ALLOWED_CAPACITY_INCREMENT_FACTOR)) ∧
    (isNaturalNumber c = true ↔ ((Int.floor c : ℚ) = c ∧ 1 ≤ c)) ∧
    (isNaturalNumber c = true → MIN_ALLOWED_CAPACITY_INCREMENT_FACTOR ≤ f →
      f ≤ MAX_ALLOWED_CAPACITY_INCREMENT_FACTOR →
      makeSlimQueue T c f = .ok
        { cyclicBuffer := List.replicate (Int.floor c).toNat default
          headIndex := 0
          size := 0
          numberOfCapacityIncrements := 0
          capacityIncrementFactor := f }) := by
  refine ⟨⟨?_, makeSlimQueue_error c f⟩, ?_, makeSlimQueue_ok c f⟩
  · intro herr hcond
    rw [makeSlimQueue_ok c f hcond.1 hcond.2.1 hcond.2.2] at herr
    cases herr
  · rw [isNaturalNumber]
    simp only [Bool.and_eq_true, decide_eq_true_eq]
    have hfl : (1 ≤ Int.floor c) ↔ ((1 : ℚ) ≤ c) := by
      rw [Int.le_floor]
      norm_num
    rw [hfl]
    tauto

/-- Witness for C3 at a concrete input: capacity 3 with factor 1.5 validates
and produces the expected empty three-slot state. -/
theorem construction_validation_witness :
    isNaturalNumber 3 = true ∧
    MIN_ALLOWED_CAPACITY_INCREMENT_FACTOR ≤ (3/2 : ℚ) ∧
    (3/2 : ℚ) ≤ MAX_ALLOWED_CAPACITY_INCREMENT_FACTOR ∧
    makeSlimQueue ℕ 3 (3/2) = .ok
      { cyclicBuffer := List.replicate (Int.floor (3 : ℚ)).toNat default
        headIndex := 0
        size := 0
        numberOfCapacityIncrements := 0
        capacityIncrementFactor := 3/2 } :=
  ⟨by decide, by decide, by decide,
   (construction_validation ℕ 3 (3/2)).2.2 (by decide) (by decide) (by decide)⟩

/-- C4 (growth formula and progress): a growth step on a full queue sets the
capacity to `Math.ceil(oldCapacity * growthFactor)` with the multiplication
performed in the host's binary64 floating-point arithmetic (the exact
product rounded to the nearest double, ties to even — `roundToDouble`),
strictly increases the capacity for every capacity ≥ 1 and factor in
`[1.1, 2]` (the half-ulp rounding error cannot consume the 10 % head-room),
and bumps `numberOfCapacityIncrements` by exactly one; concretely, pushing
1..10 into a queue of capacity 1 whose stored factor is the double value of
`1.1` passes through capacities 1,2,3,4,5,6,7,8,9,10 with exactly 9
increments. -/
theorem growth_formula (T : Type) [Inhabited T] (q : SlimQueue T) (hWF : WF q)
    (hfull : q.size = q.cyclicBuffer.length) :
    ((increaseCapacityIfNecessary q).cyclicBuffer.length =
      (Int.ceil (roundToDouble
        ((q.cyclicBuffer.length : ℚ) * q.capacityIncrementFactor))).toNat ∧
     q.cyclicBuffer.length < (increaseCapacityIfNecessary q).cyclicBuffer.length ∧
     (increaseCapacityIfNecessary q).numberOfCapacityIncrements =
       q.numberOfCapacityIncrements + 1) ∧
    (([1, 2, 3, 4, 5, 6, 7, 8, 9, 10].scanl push
        (⟨[0], 0, 0, 0, JS_NUMBER_1_1⟩ : SlimQueue ℕ)).map capacity =
      [1, 1, 2, 3, 4, 5, 6, 7, 8, 9, 10] ∧
     (pushList (⟨[0], 0, 0, 0, JS_NUMBER_1_1⟩ : SlimQueue ℕ)
        [1, 2, 3, 4, 5, 6, 7, 8, 9, 10]).numberOfCapacityIncrements = 9) := by
  have hnl : ¬ q.size < q.cyclicBuffer.length := by omega
  obtain ⟨_, _, _, gi, glen, ggt, _, _, _⟩ := grow_spec q hWF hnl
  exact ⟨⟨glen, ggt, gi⟩, by decide, by decide⟩

/-- Witness for C4 at a concrete input: growing a full one-slot queue whose
factor is the double value of 1.1 yields capacity 2 = ceil(fl(1·1.1)). -/
theorem growth_formula_witness :
    WF (⟨[7], 0, 1, 0, JS_NUMBER_1_1⟩ : SlimQueue ℕ) ∧
    (⟨[7], 0, 1, 0, JS_NUMBER_1_1⟩ : SlimQueue ℕ).size =
      (⟨[7], 0, 1, 0, JS_NUMBER_1_1⟩ : SlimQueue ℕ).cyclicBuffer.length ∧
    (increaseCapacityIfNecessary
      (⟨[7], 0, 1, 0, JS_NUMBER_1_1⟩ : SlimQueue ℕ)).cyclicBuffer.length =
      (Int.ceil (roundToDouble
        (((⟨[7], 0, 1, 0, JS_NUMBER_1_1⟩ : SlimQueue ℕ).cyclicBuffer.length : ℚ) *
          JS_NUMBER_1_1))).toNat :=
  ⟨by decide, rfl,
   ((growth_formula ℕ ⟨[7], 0, 1, 0, JS_NUMBER_1_1⟩ (by decide) rfl).1).1⟩

/-- C7 (capacity monotonicity): `push` never shrinks the buffer, leaves it
untouched (same length, same increment count) whenever the queue was not
full, and strictly grows it exactly when `size = capacity`; `pop` and
`clear` never change the buffer length. -/
theorem capacity_monotonicity (T : Type) [Inhabited T] (q : SlimQueue T) (x : T)
    (hWF : WF q) :
    q.cyclicBuffer.length ≤ (push q x).cyclicBuffer.length ∧
    (q.size < q.cyclicBuffer.length →
      (push q x).cyclicBuffer.length = q.cyclicBuffer.length ∧
      (push q x).numberOfCapacityIncrements = q.numberOfCapacityIncrements) ∧
    (q.size = q.cyclicBuffer.length →
      q.cyclicBuffer.length < (push q x).cyclicBuffer.length) ∧
    (pop q).2.cyclicBuffer.length = q.cyclicBuffer.length ∧
    (clear q).cyclicBuffer.length = q.cyclicBuffer.length := by
  obtain ⟨_, _, _, _, plen, hcase1, hcase2⟩ := push_spec q x hWF
  refine ⟨plen, hcase1, fun hfull => ?_, ?_, (clear_spec q).2.2.1⟩
  · obtain ⟨e1, _⟩ := hcase2 (by omega)
    rw [e1]
    exact ceil_growth_gt _ _ (by have := hWF.1; omega) hWF.2.2
  · by_cases h0 : q.size = 0
    · rw [pop_empty q h0]
    · exact (pop_spec q hWF (by omega)).2.2.2.1

/-- Witness for C7 at a concrete input: pushing onto a full one-slot queue
strictly grows the buffer; `pop` and `clear` leave the length at 1. -/
theorem capacity_monotonicity_witness :
    WF (⟨[7], 0, 1, 0, 11/10⟩ : SlimQueue ℕ) ∧
    (⟨[7], 0, 1, 0, 11/10⟩ : SlimQueue ℕ).cyclicBuffer.length <
      (push (⟨[7], 0, 1, 0, 11/10⟩ : SlimQueue ℕ) 9).cyclicBuffer.length ∧
    (pop (⟨[7], 0, 1, 0, 11/10⟩ : SlimQueue ℕ)).2.cyclicBuffer.length = 1 ∧
    (clear (⟨[7], 0, 1, 0, 11/10⟩ : SlimQueue ℕ)).cyclicBuffer.length = 1 :=
  ⟨by decide,
   (capacity_monotonicity ℕ ⟨[7], 0, 1, 0, 11/10⟩ 9 (by decide)).2.2.1 rfl,
   (capacity_monotonicity ℕ ⟨[7], 0, 1, 0, 11/10⟩ 9 (by decide)).2.2.2.1,
   (capacity_monotonicity ℕ ⟨[7], 0, 1, 0, 11/10⟩ 9 (by decide)).2.2.2.2⟩

/-- C8 (growth re-linearization): after the reallocation a `push` on a full
queue triggers, the head is 0, the `size` items occupy physical indices
`0..size-1` in logical (oldest-first) order, and the logical item sequence
(the snapshot) is unchanged. -/
theorem growth_relinearization (T : Type) [Inhabited T] (q : SlimQueue T)
    (hWF : WF q) (hfull : q.size = q.cyclicBuffer.length) :
    (increaseCapacityIfNecessary q).headIndex = 0 ∧
    (increaseCapacityIfNecessary q).cyclicBuffer.take q.size = getSnapshot q ∧
    getSnapshot (increaseCapacityIfNecessary q) = getSnapshot q ∧
    (increaseCapacityIfNecessary q).size = q.size := by
  have hnl : ¬ q.size < q.cyclicBuffer.length := by omega
  obtain ⟨gh, gs, _, _, _, _, gbuf, gsnap, _⟩ := grow_spec q hWF hnl
  exact ⟨gh, by rw [gbuf, List.take_left' (length_getSnapshot q)], gsnap, gs⟩

/-- Witness for C8 at a concrete input: a wrapped full two-slot queue
(head at index 1, logical order `[1, 2]`) re-linearizes to head 0 with the
first two slots `[1, 2]`. -/
theorem growth_relinearization_witness :
    WF (⟨[2, 1], 1, 2, 0, 11/10⟩ : SlimQueue ℕ) ∧
    (⟨[2, 1], 1, 2, 0, 11/10⟩ : SlimQueue ℕ).size =
      (⟨[2, 1], 1, 2, 0, 11/10⟩ : SlimQueue ℕ).cyclicBuffer.length ∧
    (increaseCapacityIfNecessary (⟨[2, 1], 1, 2, 0, 11/10⟩ : SlimQueue ℕ)).headIndex = 0 ∧
    (increaseCapacityIfNecessary
      (⟨[2, 1], 1, 2, 0, 11/10⟩ : SlimQueue ℕ)).cyclicBuffer.take 2 =
      getSnapshot (⟨[2, 1], 1, 2, 0, 11/10⟩ : SlimQueue ℕ) :=
  ⟨by decide, rfl,
   (growth_relinearization ℕ ⟨[2, 1], 1, 2, 0, 11/10⟩ (by decide) rfl).1,
   (growth_relinearization ℕ ⟨[2, 1], 1, 2, 0, 11/10⟩ (by decide) rfl).2.1⟩

/-- C9 (clear frame effect): `clear` always succeeds and leaves `size = 0`
and `head = 0` while preserving the buffer length and the increment counter
exactly; the cleared queue is well formed and a subsequent push behaves as
on an empty queue of that capacity (its snapshot is just the pushed item). -/
theorem clear_frame_effect (T : Type) [Inhabited T] (q : SlimQueue T) (x : T)
    (hWF : WF q) :
    (clear q).size = 0 ∧
    (clear q).headIndex = 0 ∧
    (clear q).cyclicBuffer.length = q.cyclicBuffer.length ∧
    (clear q).numberOfCapacityIncrements = q.numberOfCapacityIncrements ∧
    WF (clear q) ∧
    getSnapshot (push (clear q) x) = [x] := by
  obtain ⟨c1, c2, c3, c4, c5⟩ := clear_spec q
  have hWFc : WF (clear q) := by
    refine ⟨?_, ?_, ?_⟩
    · rw [c2, c3]; have := hWF.1; omega
    · rw [c1]; omega
    · rw [c5]; exact hWF.2.2
  obtain ⟨_, _, psnap, _⟩ := push_spec (clear q) x hWFc
  have hempty : getSnapshot (clear q) = [] := by
    have hl := length_getSnapshot (clear q)
    rw [c1] at hl
    exact List.eq_nil_of_length_eq_zero hl
  exact ⟨c1, c2, c3, c4, hWFc, by rw [psnap, hempty, List.nil_append]⟩

/-- Witness for C9 at a concrete input: clearing a two-item queue that has
already grown once (increment counter 1) keeps capacity 2 and counter 1. -/
theorem clear_frame_effect_witness :
    WF (⟨[7, 8], 0, 2, 1, 3/2⟩ : SlimQueue ℕ) ∧
    (clear (⟨[7, 8], 0, 2, 1, 3/2⟩ : SlimQueue ℕ)).size = 0 ∧
    (clear (⟨[7, 8], 0, 2, 1, 3/2⟩ : SlimQueue ℕ)).headIndex = 0 ∧
    (clear (⟨[7, 8], 0, 2, 1, 3/2⟩ : SlimQueue ℕ)).cyclicBuffer.length = 2 ∧
    (clear (⟨[7, 8], 0, 2, 1, 3/2⟩ : SlimQueue ℕ)).numberOfCapacityIncrements = 1 ∧
    getSnapshot (push (clear (⟨[7, 8], 0, 2, 1, 3/2⟩ : SlimQueue ℕ)) 5) = [5] :=
  ⟨by decide,
   (clear_frame_effect ℕ ⟨[7, 8], 0, 2, 1, 3/2⟩ 5 (by decide)).1,
   (clear_frame_effect ℕ ⟨[7, 8], 0, 2, 1, 3/2⟩ 5 (by decide)).2.1,
   (clear_frame_effect ℕ ⟨[7, 8], 0, 2, 1, 3/2⟩ 5 (by decide)).2.2.1,
   (clear_frame_effect ℕ ⟨[7, 8], 0, 2, 1, 3/2⟩ 5 (by decide)).2.2.2.1,
   (clear_frame_effect ℕ ⟨[7, 8], 0, 2, 1, 3/2⟩ 5 (by decide)).2.2.2.2.2⟩

/-- C10 (undefined is a legal item): with items of type `Option A` — `none`
standing for the JavaScript value `undefined`, which is also the content of
vacant slots — pushing `none` succeeds, grows the logical sequence by that
element, and when its turn comes `firstIn` and `pop` return it (as `ok none`)
rather than failing, because emptiness is decided solely by the size
counter. -/
theorem undefined_item (A : Type) (q : SlimQueue (Option A)) (hWF : WF q) :
    (push q none).size = q.size + 1 ∧
    getSnapshot (push q none) = getSnapshot q ++ [none] ∧
    (q.size = 0 →
      firstIn (push q none) = .ok none ∧ (pop (push q none)).1 = .ok none) := by
  obtain ⟨pWF, psize, psnap, _⟩ := push_spec q none hWF
  refine ⟨psize, psnap, fun h0 => ?_⟩
  have hpos : 0 < (push q none).size := by omega
  obtain ⟨p1, psnap2, _⟩ := pop_spec (push q none) pWF hpos
  have hsq : getSnapshot q = [] := by
    have hl := length_getSnapshot q
    rw [h0] at hl
    exact List.eq_nil_of_length_eq_zero hl
  have hsnapP : getSnapshot (push q none) = [none] := by
    rw [psnap, hsq, List.nil_append]
  rw [hsnapP] at psnap2
  simp only [List.cons.injEq] at psnap2
  obtain ⟨hv, _⟩ := psnap2
  constructor
  · rw [firstIn_spec _ hpos, ← hv]
  · rw [p1, ← hv]

/-- Witness for C10 at a concrete input: pushing `none` onto an empty queue
of `Option ℕ` items, then reading and popping it back. -/
theorem undefined_item_witness :
    WF (⟨[none], 0, 0, 0, 3/2⟩ : SlimQueue (Option ℕ)) ∧
    (push (⟨[none], 0, 0, 0, 3/2⟩ : SlimQueue (Option ℕ)) none).size = 1 ∧
    firstIn (push (⟨[none], 0, 0, 0, 3/2⟩ : SlimQueue (Option ℕ)) none) = .ok none ∧
    (pop (push (⟨[none], 0, 0, 0, 3/2⟩ : SlimQueue (Option ℕ)) none)).1 = .ok none :=
  ⟨by decide,
   (undefined_item ℕ ⟨[none], 0, 0, 0, 3/2⟩ (by decide)).1,
   ((undefined_item ℕ ⟨[none], 0, 0, 0, 3/2⟩ (by decide)).2.2 rfl).1,
   ((undefined_item ℕ ⟨[none], 0, 0, 0, 3/2⟩ (by decide)).2.2 rfl).2⟩

end ClaimTheorems

end SlimQ
